import Mathlib

/-!
Verification of the GlobalISel combiner helper (CombinerHelper.cpp) against its
natural-language specification.  The definitions below are a shallow embedding
of the source functions; machine integers are modelled as `Nat` with explicit
`% 2 ^ w` where wrap-around matters, fallible operations return `Option`, and
external oracles (dominance, legality, target policy) are parameters.
-/

namespace Combiner

/-! ## Low-level type descriptors (LLT) -/

/-- Shallow model of `LLT`: a scalar bit width or a vector shape.  An invalid
`LLT()` is modelled as `Option LLTy = none` at use sites. -/
inductive LLTy
  | scalar (bits : Nat)
  | vector (n : Nat) (ebits : Nat)
  deriving DecidableEq

def LLTy.sizeInBits : LLTy → Nat
  | .scalar b => b
  | .vector n e => n * e

def LLTy.sizeInBytes (t : LLTy) : Nat := t.sizeInBits / 8

def LLTy.isVector : LLTy → Bool
  | .scalar _ => false
  | .vector _ _ => true

def LLTy.isScalar : LLTy → Bool
  | .scalar _ => true
  | .vector _ _ => false

def LLTy.scalarBits : LLTy → Nat
  | .scalar b => b
  | .vector _ e => e

/-- `LLT::getNumElements` (asserts `isVector` in the source; a scalar is mapped
to 0 here, the model never reaches that case on well-formed inputs). -/
def LLTy.numElts : LLTy → Nat
  | .scalar _ => 0
  | .vector n _ => n

/-- `PowerOf2Floor` from MathExtras: the largest power of two not exceeding
`n`, and 0 at 0 (computed by a fuelled halving recursion so the kernel can
evaluate it). -/
def powOf2FloorGo : Nat → Nat → Nat
  | 0, _ => 0
  | fuel + 1, n => if n < 2 then n else 2 * powOf2FloorGo fuel (n / 2)

def powOf2Floor (n : Nat) : Nat := powOf2FloorGo n n

/-! ## C1: the extending-load combine's preference tie-break

`ChoosePreferredUse` and the candidate scan of
`CombinerHelper::matchCombineExtendingLoads`. -/

/-- Extend opcodes appearing as uses of a load result (`G_SEXT`, `G_ZEXT`,
`G_ANYEXT`), plus a marker for a use that is not an extend at all. -/
inductive ExtKind
  | sext
  | zext
  | anyext
  | nonext
  deriving DecidableEq

/-- `PreferredTuple`: the invalid `LLT()` is `ty = none`, the null
`MachineInstr*` is `mi = none` (candidates are identified by their position in
the use list). -/
structure PreferredTuple where
  ty : Option Nat
  extendOpcode : ExtKind
  mi : Option Nat
  deriving DecidableEq

/-- `ChoosePreferredUse` (CombinerHelper.cpp): selects between the current
preference and a candidate use. -/
def ChoosePreferredUse (cur : PreferredTuple) (tyForCandidate : Nat)
    (opcodeForCandidate : ExtKind) (miForCandidate : Nat) : PreferredTuple :=
  match cur.ty with
  | none =>
    if cur.extendOpcode = opcodeForCandidate ∨ cur.extendOpcode = .anyext then
      ⟨some tyForCandidate, opcodeForCandidate, some miForCandidate⟩
    else cur
  | some w =>
    if opcodeForCandidate = .anyext ∧ cur.extendOpcode ≠ .anyext then cur
    else if cur.extendOpcode = .anyext ∧ opcodeForCandidate ≠ .anyext then
      ⟨some tyForCandidate, opcodeForCandidate, some miForCandidate⟩
    else if w = tyForCandidate ∧ cur.extendOpcode = .sext ∧ opcodeForCandidate = .zext then cur
    else if w = tyForCandidate ∧ cur.extendOpcode = .zext ∧ opcodeForCandidate = .sext then
      ⟨some tyForCandidate, opcodeForCandidate, some miForCandidate⟩
    else if tyForCandidate > w then
      ⟨some tyForCandidate, opcodeForCandidate, some miForCandidate⟩
    else cur

/-- One non-debug use of the load's result register: the opcode of the user,
the user's destination width, and whether the legality query for the
corresponding extending load succeeds (`true` also models the absence of a
legality oracle). -/
structure LoadUse where
  kind : ExtKind
  ty : Nat
  legal : Bool
  deriving DecidableEq

/-- A use participates in the preference scan iff it is one of the three
extends and passes the legality query. -/
def isExtCand (u : LoadUse) : Bool :=
  (u.kind == .sext || u.kind == .zext || u.kind == .anyext) && u.legal

/-- The use-scan loop of `matchCombineExtendingLoads`: non-extend uses and
uses failing the legality query are skipped, the rest are folded through
`ChoosePreferredUse`.  `i` is the position of the head of `l` in the original
use list. -/
def scanUses : List LoadUse → Nat → PreferredTuple → PreferredTuple
  | [], _, cur => cur
  | u :: rest, i, cur =>
    if isExtCand u then
      scanUses rest (i + 1) (ChoosePreferredUse cur u.ty u.kind i)
    else
      scanUses rest (i + 1) cur

/-- The three load opcodes accepted by `matchCombineExtendingLoads`. -/
inductive LoadOpc
  | gLoad
  | gSextload
  | gZextload
  deriving DecidableEq

/-- The initial `PreferredOpcode` of `matchCombineExtendingLoads`. -/
def preferredOpcodeFor : LoadOpc → ExtKind
  | .gLoad => .anyext
  | .gSextload => .sext
  | .gZextload => .zext

def isPow2 (n : Nat) : Bool := n != 0 && (n &&& (n - 1)) == 0

/-- `CombinerHelper::matchCombineExtendingLoads`: structural pre-checks, then
the preference scan; the match fails iff no candidate was selected
(`Preferred.MI == nullptr`). -/
def matchCombineExtendingLoads (opc : LoadOpc) (loadValueTy : LLTy)
    (uses : List LoadUse) : Option PreferredTuple :=
  if ¬ loadValueTy.isScalar then none
  else if loadValueTy.sizeInBits < 8 then none
  else if ¬ isPow2 loadValueTy.sizeInBits then none
  else
    let pref := scanUses uses 0 ⟨none, preferredOpcodeFor opc, none⟩
    match pref.mi with
    | some _ => some pref
    | none => none

/-- Rank separating defined extends from the undefined any-extend (spec
tie-break rule 1). -/
def definedRank : ExtKind → Nat
  | .anyext => 0
  | _ => 1

/-- Rank preferring sign over zero extension at equal width (spec tie-break
rule 2). -/
def signRank : ExtKind → Nat
  | .sext => 1
  | _ => 0

/-- The spec's deterministic tie-break as a strict preference: candidate
`(ck, ct)` strictly beats `(pk, pt)` iff it wins the lexicographic comparison
(defined-over-any, then larger destination width, then sign-over-zero). -/
def prefBeats (ck : ExtKind) (ct : Nat) (pk : ExtKind) (pt : Nat) : Bool :=
  decide (definedRank pk < definedRank ck ∨
    (definedRank ck = definedRank pk ∧
      (pt < ct ∨ (ct = pt ∧ signRank pk < signRank ck))))

/-! ## C8: shift splitting for wide logical right shifts

`matchCombineShiftToUnmerge` / `applyCombineShiftToUnmerge` (the `G_LSHR`
branch). -/

/-- `CombinerHelper::matchCombineShiftToUnmerge`: returns the constant shift
amount accepted for narrowing, `none` when the rule abstains. -/
def matchCombineShiftToUnmerge (size targetShiftSize : Nat) (isVec : Bool)
    (shiftConst : Option Nat) : Option Nat :=
  if isVec then none
  else if size ≤ targetShiftSize then none
  else
    match shiftConst with
    | none => none
    | some v => if size / 2 ≤ v ∧ v < size then some v else none

/-- Value semantics of the `G_LSHR` branch of
`applyCombineShiftToUnmerge`: unmerge the source into two halves, shift the
high half by `shiftVal - half` when that is non-zero, and merge the result as
the low part with a zero high part.  `G_UNMERGE_VALUES` yields
`lo = x % 2 ^ half` (register 0) and `hi = x / 2 ^ half % 2 ^ half`
(register 1); `G_MERGE_VALUES lo hi = lo + hi * 2 ^ half`. -/
def applyLshrUnmerge (size x shiftVal : Nat) : Nat :=
  let half := size / 2
  let hi := x / 2 ^ half % 2 ^ half
  let narrowShiftAmt := shiftVal - half
  let narrowed := if narrowShiftAmt ≠ 0 then hi >>> narrowShiftAmt else hi
  narrowed + 0 * 2 ^ half

/-- Instructions emitted by the `G_LSHR` branch of
`applyCombineShiftToUnmerge`. -/
inductive EmitOp
  | unmergeOp
  | constOp (v : Nat)
  | lshrOp (amt : Nat)
  | mergeOp
  deriving DecidableEq

/-- The instruction sequence emitted by the `G_LSHR` branch: one unmerge, the
narrow shift (with its constant) only when `shiftVal - half` is non-zero, the
zero constant, and the final merge. -/
def applyLshrUnmergeEmit (size shiftVal : Nat) : List EmitOp :=
  let narrowShiftAmt := shiftVal - size / 2
  [EmitOp.unmergeOp] ++
    (if narrowShiftAmt ≠ 0 then
      [EmitOp.constOp narrowShiftAmt, EmitOp.lshrOp narrowShiftAmt]
    else []) ++
    [EmitOp.constOp 0, EmitOp.mergeOp]

def EmitOp.isNarrowShift : EmitOp → Bool
  | .lshrOp _ => true
  | _ => false

/-! ## Machine IR model

A minimal shallow embedding of `MachineInstr` / `MachineRegisterInfo` for the
claims about `findPostIndexCandidate`, `findPreIndexCandidate`,
`matchCombineConcatVectors`, `replaceRegWith` and `matchEqualDefs`.  Virtual
registers are `Nat`s; an instruction's operands follow the LLVM convention of
definitions first (`ndefs` of them) followed by use operands; the instruction
list of an `MFState` is one basic block in program order (`bb` tags the
owning block for the `dominates` fallback). -/

inductive Opcode
  | gLoad
  | gSextload
  | gZextload
  | gStore
  | gPtrAdd
  | gFrameIndex
  | copyOp
  | gConcatVectors
  | gBuildVector
  | gImplicitDef
  | gUnmergeValues
  | gMemcpy
  | gMemmove
  | gMemset
  | other
  deriving DecidableEq

structure Instr where
  opcode : Opcode
  ndefs : Nat
  ops : List Nat
  invLoad : Bool
  bb : Nat
  deriving DecidableEq

def Instr.defs (i : Instr) : List Nat := i.ops.take i.ndefs

def Instr.uses (i : Instr) : List Nat := i.ops.drop i.ndefs

/-- `MI.getOperand(k).getReg()`. -/
def Instr.getOp (i : Instr) (k : Nat) : Option Nat := i.ops.get? k

/-- `MachineInstr::mayLoadOrStore`. -/
def Instr.mayLoadOrStore (i : Instr) : Bool :=
  match i.opcode with
  | .gLoad | .gSextload | .gZextload | .gStore | .gMemcpy | .gMemmove | .gMemset => true
  | _ => false

structure MFState where
  instrs : List Instr
  nextReg : Nat
  types : List LLTy
  physBound : Nat
  deriving DecidableEq

/-- A register is physical below `physBound` (virtual registers are allocated
from `physBound` upward). -/
def MFState.isPhys (s : MFState) (r : Nat) : Bool := r < s.physBound

/-- `MRI.getType`. -/
def getType (s : MFState) (r : Nat) : LLTy := s.types.getD r (.scalar 0)

/-- `MRI.getVRegDef` / `MRI.getUniqueVRegDef` as an instruction value (SSA:
the first defining instruction). -/
def defInstrOf (s : MFState) (r : Nat) : Option Instr :=
  s.instrs.find? (fun ins => ins.defs.contains r)

/-- The index of the defining instruction of `r`. -/
def defIndexOf (s : MFState) (r : Nat) : Option Nat :=
  s.instrs.findIdx? (fun ins => ins.defs.contains r)

/-- Indices of the instructions with a non-debug use operand of `r`
(`MRI.use_nodbg_instructions`). -/
def useInstrIdxs (s : MFState) (r : Nat) : List Nat :=
  (List.range s.instrs.length).filter (fun i =>
    match s.instrs.get? i with
    | some ins => ins.uses.contains r
    | none => false)

/-- Number of non-debug use operands of `r`. -/
def useCount (s : MFState) (r : Nat) : Nat :=
  (s.instrs.map (fun ins => ins.uses.count r)).sum

/-- `MRI.hasOneNonDBGUse`. -/
def hasOneNonDBGUse (s : MFState) (r : Nat) : Bool := useCount s r == 1

/-- `getDefIgnoringCopies` (GlobalISel Utils): walk the def chain through
`COPY` instructions whose source is a virtual register; returns the index of
the final defining instruction.  Fuelled to stay total; callers pass
`s.instrs.length`, enough for any acyclic chain. -/
def defIdxIgnoringCopies (s : MFState) : Nat → Nat → Option Nat
  | 0, _ => none
  | fuel + 1, r =>
    match defIndexOf s r with
    | none => none
    | some i =>
      match s.instrs.get? i with
      | none => none
      | some ins =>
        if ins.opcode = .copyOp then
          match ins.getOp 1 with
          | none => none
          | some src =>
            if s.isPhys src then some i
            else defIdxIgnoringCopies s fuel src
        else some i

/-- `getOpcodeDef`: def ignoring copies, filtered by opcode. -/
def getOpcodeDefIdx (s : MFState) (opc : Opcode) (r : Nat) : Option Nat :=
  match defIdxIgnoringCopies s s.instrs.length r with
  | none => none
  | some i =>
    match s.instrs.get? i with
    | some ins => if ins.opcode = opc then some i else none
    | none => none

/-- `CombinerHelper::dominates` over instruction indices: delegate to the
dominator-tree oracle when present, otherwise require the same block and
apply the linear-scan `isPredecessor` (which is false on the instruction
itself). -/
def dominatesMI (mdt : Option (Nat → Nat → Bool)) (s : MFState) (d u : Nat) : Bool :=
  match mdt with
  | some f => f d u
  | none =>
    match s.instrs.get? d, s.instrs.get? u with
    | some di, some ui =>
      if di.bb ≠ ui.bb then false
      else decide (d < u)
    | _, _ => false

/-! ## C3 / C4: indexed load/store candidate discovery

`CombinerHelper::findPostIndexCandidate` and
`CombinerHelper::findPreIndexCandidate`.  `legalIdx base offset` models
`TLI.isIndexingLegal` for the respective pre/post form, `force` models the
`ForceLegalIndexing` flag, `mdt` the optional dominator tree. -/

/-- The loop body of `findPostIndexCandidate` over the non-debug users of the
base register, in order: skip non-`G_PTR_ADD` users, candidates with an
illegal addressing mode, candidates whose offset has no unique def or whose
offset def does not dominate the memory access, and candidates with a use of
the pointer-add result the memory access does not dominate.  Returns
`(Addr, Offset)` of the first surviving candidate. -/
def scanPostCandidates (mdt : Option (Nat → Nat → Bool))
    (legalIdx : Nat → Nat → Bool) (force : Bool) (s : MFState)
    (mi base : Nat) : List Nat → Option (Nat × Nat)
  | [] => none
  | c :: rest =>
    match s.instrs.get? c with
    | none => scanPostCandidates mdt legalIdx force s mi base rest
    | some ci =>
      if ci.opcode ≠ .gPtrAdd then scanPostCandidates mdt legalIdx force s mi base rest
      else
        match ci.getOp 2, ci.getOp 0 with
        | some off, some addr =>
          if ¬ (force || legalIdx base off) then
            scanPostCandidates mdt legalIdx force s mi base rest
          else
            match defIndexOf s off with
            | none => scanPostCandidates mdt legalIdx force s mi base rest
            | some offDef =>
              if ¬ dominatesMI mdt s offDef mi then
                scanPostCandidates mdt legalIdx force s mi base rest
              else if (useInstrIdxs s addr).all (fun u => dominatesMI mdt s mi u) then
                some (addr, off)
              else
                scanPostCandidates mdt legalIdx force s mi base rest
        | _, _ => scanPostCandidates mdt legalIdx force s mi base rest

/-- `CombinerHelper::findPostIndexCandidate`: returns `(Addr, Base, Offset)`.
The base is operand 1 of the memory access; a base defined by
`G_FRAME_INDEX` abstains immediately. -/
def findPostIndexCandidate (mdt : Option (Nat → Nat → Bool))
    (legalIdx : Nat → Nat → Bool) (force : Bool) (s : MFState)
    (mi : Nat) : Option (Nat × Nat × Nat) :=
  match s.instrs.get? mi with
  | none => none
  | some mIns =>
    match mIns.getOp 1 with
    | none => none
    | some base =>
      let baseDefIsFI : Bool :=
        match defInstrOf s base with
        | some bd => bd.opcode == Opcode.gFrameIndex
        | none => false
      if baseDefIsFI then none
      else
        match scanPostCandidates mdt legalIdx force s mi base (useInstrIdxs s base) with
        | some (addr, off) => some (addr, base, off)
        | none => none

/-- `CombinerHelper::findPreIndexCandidate`: returns `(Addr, Base, Offset)`.
The address is operand 1 of the memory access; it must be defined (through
copies) by a `G_PTR_ADD`, and the search abstains when the address has
exactly one non-debug use.  Then the target legality, frame-index base,
store-of-base and store-of-address rejections, and finally the requirement
that the access dominates every non-debug use of the address. -/
def findPreIndexCandidate (mdt : Option (Nat → Nat → Bool))
    (legalIdx : Nat → Nat → Bool) (force : Bool) (s : MFState)
    (mi : Nat) : Option (Nat × Nat × Nat) :=
  match s.instrs.get? mi with
  | none => none
  | some mIns =>
    match mIns.getOp 1 with
    | none => none
    | some addr =>
      match getOpcodeDefIdx s .gPtrAdd addr with
      | none => none
      | some ai =>
        match s.instrs.get? ai with
        | none => none
        | some aIns =>
          match aIns.getOp 1, aIns.getOp 2 with
          | some base, some off =>
            if hasOneNonDBGUse s addr then none
            else if ¬ (force || legalIdx base off) then none
            else
              let baseDefIsFI : Bool :=
                match defIdxIgnoringCopies s s.instrs.length base with
                | some bi =>
                  match s.instrs.get? bi with
                  | some bIns => bIns.opcode == Opcode.gFrameIndex
                  | none => false
                | none => false
              if baseDefIsFI then none
              else if mIns.opcode = Opcode.gStore ∧ mIns.getOp 0 = some base then none
              else if mIns.opcode = Opcode.gStore ∧ mIns.getOp 0 = some addr then none
              else if (useInstrIdxs s addr).all (fun u => dominatesMI mdt s mi u) then
                some (addr, base, off)
              else none
          | _, _ => none

/-! ## C5: `matchCombineConcatVectors`

The match function scans the operands of a `G_CONCAT_VECTORS`; operands
defined by `G_BUILD_VECTOR` contribute their scalars, operands defined by
`G_IMPLICIT_DEF` cause the builder to materialize one shared scalar undef
instruction (a graph mutation performed during matching), anything else makes
the match fail — leaving any already-materialized undef in place. -/

structure ConcatRes where
  ok : Bool
  isUndef : Bool
  ops : List Nat
  state : MFState
  deriving DecidableEq

/-- Append a freshly built `G_IMPLICIT_DEF` of scalar type `b` (the builder
allocates the next virtual register). -/
def buildUndefScalar (s : MFState) (b : Nat) : MFState :=
  { s with
    instrs := s.instrs ++ [⟨.gImplicitDef, 1, [s.nextReg], false, 0⟩],
    types := s.types ++ [LLTy.scalar b],
    nextReg := s.nextReg + 1 }

/-- The operand loop of `matchCombineConcatVectors`.  `undef` is the register
of the undef instruction materialized so far (at most one per match call). -/
def concatScan (undef : Option Nat) (isU : Bool) (acc : List Nat) :
    MFState → List Nat → ConcatRes
  | s, [] => ⟨true, isU, acc, s⟩
  | s, r :: rest =>
    match defInstrOf s r with
    | none => ⟨false, isU, acc, s⟩
    | some d =>
      match d.opcode with
      | .gBuildVector => concatScan undef false (acc ++ d.uses) s rest
      | .gImplicitDef =>
        let opTy := getType s r
        match undef with
        | some ur => concatScan (some ur) isU (acc ++ List.replicate opTy.numElts ur) s rest
        | none =>
          let ur := s.nextReg
          concatScan (some ur) isU (acc ++ List.replicate opTy.numElts ur)
            (buildUndefScalar s opTy.scalarBits) rest
      | _ => ⟨false, isU, acc, s⟩

/-- `CombinerHelper::matchCombineConcatVectors` (the instruction is asserted
to be a `G_CONCAT_VECTORS`; its use operands are scanned in order). -/
def matchCombineConcatVectors (s : MFState) (mi : Instr) : ConcatRes :=
  concatScan none true [] s mi.uses

/-! ## C6: `CombinerHelper::replaceRegWith`

The constraint merge `MRI.constrainRegAttrs(ToReg, FromReg)` is an external
query, modelled by the boolean `constrainOk`.  On success every operand
occurrence of `FromReg` is rewritten to `ToReg` (`MRI.replaceRegWith`); on
failure the builder emits `ToReg = COPY FromReg` at its current insertion
point (modelled as appending to the block).  Both paths are bracketed by the
changing-all-uses observer notifications. -/

inductive ObsEvent
  | changingAllUses (r : Nat)
  | finishedChangingAllUses
  deriving DecidableEq

def substReg (a b : Nat) (ins : Instr) : Instr :=
  { ins with ops := ins.ops.map (fun r => if r = a then b else r) }

def replaceRegWith (constrainOk : Bool) (s : MFState) (fromReg toReg : Nat) :
    MFState × List ObsEvent :=
  let s' :=
    if constrainOk then
      { s with instrs := s.instrs.map (substReg fromReg toReg) }
    else
      { s with instrs := s.instrs ++ [⟨.copyOp, 1, [toReg, fromReg], false, 0⟩] }
  (s', [ObsEvent.changingAllUses fromReg, ObsEvent.finishedChangingAllUses])

/-! ## C10: `CombinerHelper::matchEqualDefs`

`produceSame` models `TII.produceSameValue` (an external target hook);
`Instr` equality models `MachineInstr::isIdenticalTo`.  The operands are
`Option Nat` — `none` models a non-register operand. -/

def matchEqualDefs (produceSame : Instr → Instr → Bool) (s : MFState)
    (mop1 mop2 : Option Nat) : Bool :=
  match mop1, mop2 with
  | some r1, some r2 =>
    match defIdxIgnoringCopies s s.instrs.length r1,
          defIdxIgnoringCopies s s.instrs.length r2 with
    | some i1, some i2 =>
      match s.instrs.get? i1, s.instrs.get? i2 with
      | some ins1, some ins2 =>
        if i1 = i2 then r1 == r2
        else if ins1.mayLoadOrStore && !ins1.invLoad then false
        else if ins1.uses.any (fun r => s.isPhys r) then ins1 == ins2
        else produceSame ins1 ins2
      | _, _ => false
    | _, _ => false
  | _, _ => false

/-! ## Bulk-memory lowering (C2, C7, C9)

`findGISelOptimalMemOpLowering`, the memcpy/memmove/memset emission loops and
`tryCombineMemCpyFamily`.  The target-policy oracles
(`getOptimalMemOpLLT`, `allowsMisalignedMemoryAccesses`, the per-kind store
limits, `isTruncateFree`) are parameters. -/

/-- Modelled from the spec: the planning parameter block `MemOp` is declared
outside this tree (TargetLowering.h); its `Copy`/`Set` constructors record
the total size, whether the destination alignment may still be raised, the
destination and source alignments, and permit overlapping accesses exactly
when the operation is not volatile — the source's `optimizeMemmove` FIXME
comment relies on this by passing `IsVolatile = true` to disable overlap. -/
structure MemOpDesc where
  size : Nat
  dstAlignCanChange : Bool
  dstAlign : Nat
  srcAlign : Nat
  allowOverlap : Bool
  isMemset : Bool
  deriving DecidableEq

def MemOpDesc.copy (size : Nat) (dstAlignCanChange : Bool)
    (dstAlign srcAlign : Nat) (isVolatile : Bool) : MemOpDesc :=
  ⟨size, dstAlignCanChange, dstAlign, srcAlign, !isVolatile, false⟩

def MemOpDesc.set (size : Nat) (dstAlignCanChange : Bool) (dstAlign : Nat)
    (isVolatile : Bool) : MemOpDesc :=
  ⟨size, dstAlignCanChange, dstAlign, dstAlign, !isVolatile, true⟩

def MemOpDesc.isFixedDstAlign (op : MemOpDesc) : Bool := !op.dstAlignCanChange

def MemOpDesc.isMemcpyWithFixedDstAlign (op : MemOpDesc) : Bool :=
  !op.isMemset && !op.dstAlignCanChange

/-- The `while (Op.getDstAlign() < Ty.getSizeInBytes() && !allows...)` loop
choosing the fallback type when no target-optimal type is supplied; note the
source shrinks by `LLT::scalar(Ty.getSizeInBytes())`, i.e. the byte count
becomes the new bit count. -/
def initTyLoop (allowed : LLTy → Nat → Bool) (op : MemOpDesc) :
    Nat → LLTy → LLTy
  | 0, ty => ty
  | fuel + 1, ty =>
    if op.isFixedDstAlign && decide (op.dstAlign < ty.sizeInBytes) &&
        !(allowed ty op.dstAlign) then
      initTyLoop allowed op fuel (LLTy.scalar ty.sizeInBytes)
    else ty

/-- The inner `while (TySize > Size)` loop of
`findGISelOptimalMemOpLowering`: shrink the candidate type, or keep the
current type for an overlapping tail access when a previous chunk exists,
overlap is permitted and the target reports the misaligned access fast
(`fast` combines the `allowsMisalignedMemoryAccesses` result with its `Fast`
out-parameter).  Returns the chunk type together with the `TySize` used to
decrement the remaining length (equal to the remaining length in the overlap
case). -/
def shrinkTy (fast : LLTy → Nat → Bool) (op : MemOpDesc) (numMemOps : Nat) :
    Nat → LLTy → Nat → Option (LLTy × Nat)
  | 0, _, _ => none
  | fuel + 1, ty, size =>
    if ty.sizeInBytes ≤ size then some (ty, ty.sizeInBytes)
    else
      let newTy0 := if ty.isVector then
          (if ty.sizeInBits > 64 then LLTy.scalar 64 else LLTy.scalar 32)
        else ty
      let newTy := LLTy.scalar (powOf2Floor (newTy0.sizeInBits - 1))
      if newTy.sizeInBytes = 0 then none
      else if numMemOps != 0 && op.allowOverlap && decide (newTy.sizeInBytes < size) &&
          fast ty (if op.isFixedDstAlign then op.dstAlign else 0) then
        some (ty, size)
      else shrinkTy fast op numMemOps fuel newTy size

/-- The outer `while (Size)` loop: abort when the operation count would
exceed the limit, otherwise record the chunk type and continue on the
remaining length. -/
def planLoop (fast : LLTy → Nat → Bool) (op : MemOpDesc) (limit : Nat) :
    Nat → LLTy → Nat → Nat → List LLTy → Option (List LLTy)
  | 0, _, _, _, _ => none
  | fuel + 1, ty, size, numMemOps, acc =>
    if size = 0 then some acc
    else
      match shrinkTy fast op numMemOps (ty.sizeInBits + 66) ty size with
      | none => none
      | some (ty', tySize) =>
        if limit < numMemOps + 1 then none
        else planLoop fast op limit fuel ty' (size - tySize) (numMemOps + 1) (acc ++ [ty'])

/-- `findGISelOptimalMemOpLowering` (CombinerHelper.cpp): reject a memcpy
with fixed destination alignment whose source alignment is smaller, pick the
starting type (target-optimal or the alignment-driven fallback), then run the
chunking loop. -/
def findGISelOptimalMemOpLowering (limit : Nat) (op : MemOpDesc)
    (optimalTy : Option LLTy) (allowed fast : LLTy → Nat → Bool) :
    Option (List LLTy) :=
  if op.isMemcpyWithFixedDstAlign && decide (op.srcAlign < op.dstAlign) then none
  else
    let ty :=
      match optimalTy with
      | some t => t
      | none => initTyLoop allowed op 70 (LLTy.scalar 64)
    planLoop fast op limit (op.size + 1) ty op.size 0 []

/-- Instructions emitted by the bulk-memory lowerings: loads and stores carry
their chunk index, byte offset and byte size; constants and pointer-adds are
the addressing scaffolding; `setValE` stands for a materialization of the
memset splat value of the given bit width. -/
inductive MemEvent
  | loadE (idx off b : Nat)
  | storeE (idx off b : Nat)
  | constE (v : Nat)
  | ptrAddE (off : Nat)
  | setValE (bits : Nat)
  deriving DecidableEq

def MemEvent.isLoad : MemEvent → Bool
  | .loadE _ _ _ => true
  | _ => false

def MemEvent.isStore : MemEvent → Bool
  | .storeE _ _ _ => true
  | _ => false

/-- Offsets and sizes of the load events, in emission order. -/
def loadOffs : List MemEvent → List (Nat × Nat)
  | [] => []
  | .loadE _ off b :: r => (off, b) :: loadOffs r
  | _ :: r => loadOffs r

/-- Offsets and sizes of the store events, in emission order. -/
def storeOffs : List MemEvent → List (Nat × Nat)
  | [] => []
  | .storeE _ off b :: r => (off, b) :: storeOffs r
  | _ :: r => storeOffs r

/-- The emission loop of `optimizeMemcpy`: per chunk, adjust the offset
backwards when the chunk overlaps the tail, build the offset constant and the
source pointer-add when the offset is non-zero, load, build the destination
pointer-add (reusing the offset constant), store. -/
def memcpyEmit : List LLTy → Nat → Nat → Nat → List MemEvent
  | [], _, _, _ => []
  | ty :: rest, off, size, idx =>
    let b := ty.sizeInBytes
    let off' := if decide (size < b) then off - (b - size) else off
    (if off' ≠ 0 then [MemEvent.constE off', MemEvent.ptrAddE off'] else []) ++
      [MemEvent.loadE idx off' b] ++
      (if off' ≠ 0 then [MemEvent.ptrAddE off'] else []) ++
      [MemEvent.storeE idx off' b] ++
      memcpyEmit rest (off' + b) (size - b) (idx + 1)

/-- The first loop of `optimizeMemmove`: issue every load (with its
addressing) before any store; there is no overlap adjustment. -/
def memmoveLoads : List LLTy → Nat → Nat → List MemEvent
  | [], _, _ => []
  | ty :: rest, off, idx =>
    let b := ty.sizeInBytes
    (if off ≠ 0 then [MemEvent.constE off, MemEvent.ptrAddE off] else []) ++
      [MemEvent.loadE idx off b] ++ memmoveLoads rest (off + b) (idx + 1)

/-- The second loop of `optimizeMemmove`: store the previously loaded values
in the same chunk order at the same running offsets. -/
def memmoveStores : List LLTy → Nat → Nat → List MemEvent
  | [], _, _ => []
  | ty :: rest, off, idx =>
    let b := ty.sizeInBytes
    (if off ≠ 0 then [MemEvent.constE off, MemEvent.ptrAddE off] else []) ++
      [MemEvent.storeE idx off b] ++ memmoveStores rest (off + b) (idx + 1)

def memmoveEmit (plan : List LLTy) : List MemEvent :=
  memmoveLoads plan 0 0 ++ memmoveStores plan 0 0

/-- The emission loop of `optimizeMemset`: one store per chunk with the same
backward offset adjustment as memcpy; a narrower chunk re-materializes (or
truncates) the splat value, modelled by a `setValE` event. -/
def memsetEmit (truncFree : Bool) (largest : Nat) :
    List LLTy → Nat → Nat → Nat → List MemEvent
  | [], _, _, _ => []
  | ty :: rest, off, size, idx =>
    let b := ty.sizeInBytes
    let off' := if decide (size < b) then off - (b - size) else off
    (if ty.sizeInBits < largest then [MemEvent.setValE ty.sizeInBits] else []) ++
      (if off' ≠ 0 then [MemEvent.constE off', MemEvent.ptrAddE off'] else []) ++
      [MemEvent.storeE idx off' b] ++
      memsetEmit truncFree largest rest (off' + b) (size - b) (idx + 1)

/-- `CombinerHelper::optimizeMemcpy` without the frame-object alignment
raising (which does not affect the plan or the emitted offsets): common
alignment of destination and source, plan via
`findGISelOptimalMemOpLowering` with `MemOp::Copy(..., IsVolatile)`, then the
interleaved load/store emission. -/
def optimizeMemcpy (limit knownLen : Nat) (dstAlignCanChange : Bool)
    (dstAlign srcAlign : Nat) (isVolatile : Bool) (optimalTy : Option LLTy)
    (allowed fast : LLTy → Nat → Bool) : Option (List MemEvent) :=
  match findGISelOptimalMemOpLowering limit
      (MemOpDesc.copy knownLen dstAlignCanChange (min dstAlign srcAlign) srcAlign
        isVolatile) optimalTy allowed fast with
  | none => none
  | some plan => some (memcpyEmit plan 0 knownLen 0)

/-- `CombinerHelper::optimizeMemmove`: identical planning call except that
`IsVolatile` is passed as literal `true` (the source's FIXME, disabling
overlapping chunks), then the loads-first emission. -/
def optimizeMemmove (limit knownLen : Nat) (dstAlignCanChange : Bool)
    (dstAlign srcAlign : Nat) (optimalTy : Option LLTy)
    (allowed fast : LLTy → Nat → Bool) : Option (List MemEvent) :=
  match findGISelOptimalMemOpLowering limit
      (MemOpDesc.copy knownLen dstAlignCanChange (min dstAlign srcAlign) srcAlign
        true) optimalTy allowed fast with
  | none => none
  | some plan => some (memmoveEmit plan)

/-- `CombinerHelper::optimizeMemset`: plan with `MemOp::Set`, then emit one
store per chunk; `largestBits` is the widest planned type, used to decide
which chunks need a narrower value. -/
def optimizeMemset (limit knownLen : Nat) (dstAlignCanChange : Bool)
    (dstAlign : Nat) (isVolatile truncFree : Bool) (optimalTy : Option LLTy)
    (allowed fast : LLTy → Nat → Bool) : Option (List MemEvent) :=
  match findGISelOptimalMemOpLowering limit
      (MemOpDesc.set knownLen dstAlignCanChange dstAlign isVolatile)
      optimalTy allowed fast with
  | none => none
  | some plan =>
    let largestBits := (plan.map LLTy.sizeInBits).foldl max 0
    some (MemEvent.setValE largestBits ::
      memsetEmit truncFree largestBits plan 0 knownLen 0)

/-- Outcome of `tryCombineMemCpyFamily` on the instruction graph. -/
inductive MemCombineOutcome
  | noChange
  | erasedZeroLen
  | emitted (events : List MemEvent)
  deriving DecidableEq

/-- The three opcodes handled by `tryCombineMemCpyFamily`. -/
inductive MemFamilyOpc
  | memcpyOpc
  | memmoveOpc
  | memsetOpc
  deriving DecidableEq

/-- `CombinerHelper::tryCombineMemCpyFamily`: refuse volatile operations,
refuse a non-constant length (`lenConst = none`), erase a zero-length
operation, refuse a constant length above a non-zero `maxLen` cap, then
dispatch to the per-kind lowering.  Returns the graph outcome and the
boolean combine result. -/
def tryCombineMemCpyFamily (opc : MemFamilyOpc) (isVolatile : Bool)
    (lenConst : Option Nat) (maxLen limit : Nat) (dstAlignCanChange : Bool)
    (dstAlign srcAlign : Nat) (truncFree : Bool) (optimalTy : Option LLTy)
    (allowed fast : LLTy → Nat → Bool) : MemCombineOutcome × Bool :=
  if isVolatile then (.noChange, false)
  else
    match lenConst with
    | none => (.noChange, false)
    | some knownLen =>
      if knownLen = 0 then (.erasedZeroLen, true)
      else if maxLen ≠ 0 ∧ maxLen < knownLen then (.noChange, false)
      else
        let res :=
          match opc with
          | .memcpyOpc =>
            optimizeMemcpy limit knownLen dstAlignCanChange dstAlign srcAlign
              isVolatile optimalTy allowed fast
          | .memmoveOpc =>
            optimizeMemmove limit knownLen dstAlignCanChange dstAlign srcAlign
              optimalTy allowed fast
          | .memsetOpc =>
            optimizeMemset limit knownLen dstAlignCanChange dstAlign
              isVolatile truncFree optimalTy allowed fast
        match res with
        | some events => (.emitted events, true)
        | none => (.noChange, false)

/-! ## Auxiliary predicates used by the theorems -/

/-- A plan fits a length when every chunk is no larger than the length still
remaining when it is reached (no overlapping tail chunk). -/
def fitsPlan : List LLTy → Nat → Bool
  | [], _ => true
  | t :: r, size => decide (t.sizeInBytes ≤ size) && fitsPlan r (size - t.sizeInBytes)

/-- Per-chunk (offset, byte-size) pairs of a plan laid out from `off` with no
overlap adjustment (running prefix sums of the chunk sizes). -/
def chunkOffs : List LLTy → Nat → List (Nat × Nat)
  | [], _ => []
  | t :: r, off => (off, t.sizeInBytes) :: chunkOffs r (off + t.sizeInBytes)

/-! ## Concrete machine functions used by witnesses and counterexamples -/

/-- A block with a load whose base register is also incremented by a later
`G_PTR_ADD` whose result is consumed afterwards: instruction 0 defines the
base (register 0), instruction 1 the offset (register 1), instruction 2 is
the load (uses register 0 as its address), instruction 3 is
`%3 = G_PTR_ADD %0, %1`, instruction 4 uses register 3. -/
def exPostState : MFState :=
  ⟨[⟨.other, 1, [0], false, 0⟩,
    ⟨.other, 1, [1], false, 0⟩,
    ⟨.gLoad, 1, [2, 0], false, 0⟩,
    ⟨.gPtrAdd, 1, [3, 0, 1], false, 0⟩,
    ⟨.other, 0, [3], false, 0⟩],
   4, [], 0⟩

/-- A block with a load whose address (register 2) is a `G_PTR_ADD` result
that has a second use after the load: instruction 3 is the load, instruction
4 the extra use of the address. -/
def exPreState : MFState :=
  ⟨[⟨.other, 1, [0], false, 0⟩,
    ⟨.other, 1, [1], false, 0⟩,
    ⟨.gPtrAdd, 1, [2, 0, 1], false, 0⟩,
    ⟨.gLoad, 1, [3, 2], false, 0⟩,
    ⟨.other, 0, [2], false, 0⟩],
   4, [], 0⟩

/-- A dominance oracle for straight-line code: instruction `i` dominates `j`
iff `i ≤ j` (an instruction dominates itself, as `MachineDominatorTree`
reports). -/
def lineDom : Nat → Nat → Bool := fun i j => Nat.ble i j

/-- A concat-vectors input whose first operand is defined by
`G_IMPLICIT_DEF` (of type `<2 x s32>`) and whose second operand is defined by
an opcode that makes the match fail. -/
def exConcatState : MFState :=
  ⟨[⟨.gImplicitDef, 1, [0], false, 0⟩,
    ⟨.other, 1, [1], false, 0⟩],
   3, [LLTy.vector 2 32, LLTy.scalar 32, LLTy.vector 4 32], 0⟩

def exConcatMI : Instr := ⟨.gConcatVectors, 1, [2, 0, 1], false, 0⟩

/-- A block for the register-replacement counterexample: registers 0 and 1
are defined, and instruction 2 uses register 0. -/
def exRepState : MFState :=
  ⟨[⟨.other, 1, [0], false, 0⟩,
    ⟨.other, 1, [1], false, 0⟩,
    ⟨.other, 0, [0], false, 0⟩],
   2, [], 0⟩

/-- A block where registers 0 and 1 are the two results of one
`G_UNMERGE_VALUES` of register 2. -/
def exUnmergeState : MFState :=
  ⟨[⟨.other, 1, [2], false, 0⟩,
    ⟨.gUnmergeValues, 2, [0, 1, 2], false, 0⟩],
   3, [], 0⟩

/-- An indexing-legality oracle accepting every base/offset pair. -/
def legalAlways : Nat → Nat → Bool := fun _ _ => true

/-- The always-true misalignment oracle used in concrete runs. -/
def allTrueOracle : LLTy → Nat → Bool := fun _ _ => true

/-- The always-false fast-misaligned-access oracle. -/
def allFalseOracle : LLTy → Nat → Bool := fun _ _ => false

/-- The boolean outcome of the concat-vectors operand scan, as a pure
function of the original graph: every operand must be defined by a
`G_BUILD_VECTOR` or a `G_IMPLICIT_DEF`. -/
def concatOk (s : MFState) (rs : List Nat) : Bool :=
  rs.all (fun r =>
    match defInstrOf s r with
    | some d => d.opcode == Opcode.gBuildVector || d.opcode == Opcode.gImplicitDef
    | none => false)

/-- The events emitted by the length-7 memmove lowering used in witnesses
(plan `[s32, s16, s8]`). -/
def memmoveExampleEvents : List MemEvent :=
  [.loadE 0 0 4, .constE 4, .ptrAddE 4, .loadE 1 4 2, .constE 6, .ptrAddE 6,
   .loadE 2 6 1, .storeE 0 0 4, .constE 4, .ptrAddE 4, .storeE 1 4 2,
   .constE 6, .ptrAddE 6, .storeE 2 6 1]

/-- The events emitted by the length-7 memcpy lowering when the
fast-misaligned oracle answers no (plan `[s32, s16, s8]`). -/
def memcpyExampleEvents : List MemEvent :=
  [.loadE 0 0 4, .storeE 0 0 4, .constE 4, .ptrAddE 4, .loadE 1 4 2,
   .ptrAddE 4, .storeE 1 4 2, .constE 6, .ptrAddE 6, .loadE 2 6 1,
   .ptrAddE 6, .storeE 2 6 1]

/-! # Theorems -/

/-! ### C8: shift splitting of wide logical right shifts -/

/-- Claim C8: for every 64-bit value `x` and every constant shift amount `C`
with `32 ≤ C ≤ 63`, the shift-splitting rewrite of a logical right shift
matches, splits `x` into two 32-bit halves with a single narrow shift by
`C - 32` on the high half (no narrow shift when `C = 32`), merges the shifted
high half as the low part with a zero high part, and the merged result equals
the original 64-bit logical right shift. -/
theorem shiftSplitLshr_correct (x c : Nat) (hx : x < 2 ^ 64) (h32 : 32 ≤ c)
    (h63 : c ≤ 63) :
    matchCombineShiftToUnmerge 64 32 false (some c) = some c ∧
    applyLshrUnmerge 64 x c = x >>> c ∧
    (applyLshrUnmergeEmit 64 c).countP (fun e => e.isNarrowShift) =
      (if c = 32 then 0 else 1) := by
  refine ⟨?_, ?_, ?_⟩
  · simp only [matchCombineShiftToUnmerge]
    norm_num
    omega
  · have hdiv : x / 2 ^ 32 < 2 ^ 32 := by
      have h64 : (2 : Nat) ^ 64 = 2 ^ 32 * 2 ^ 32 := by norm_num
      exact Nat.div_lt_of_lt_mul (h64 ▸ hx)
    have hhi : x / 2 ^ 32 % 2 ^ 32 = x / 2 ^ 32 := Nat.mod_eq_of_lt hdiv
    have hx32 : (64 : Nat) / 2 = 32 := by norm_num
    have hce : (2 : Nat) ^ 32 * 2 ^ (c - 32) = 2 ^ c := by
      rw [← pow_add]
      congr 1
      omega
    simp only [applyLshrUnmerge, hx32, hhi, Nat.zero_mul, Nat.add_zero]
    by_cases h0 : c - 32 = 0
    · have hc : c = 32 := by omega
      rw [if_neg (not_not_intro h0), hc, Nat.shiftRight_eq_div_pow]
    · rw [if_pos h0, Nat.shiftRight_eq_div_pow, Nat.shiftRight_eq_div_pow,
        Nat.div_div_eq_div_mul, hce]
  · by_cases hc : c = 32
    · simp [applyLshrUnmergeEmit, hc, EmitOp.isNarrowShift]
    · have : c - 64 / 2 ≠ 0 := by omega
      simp [applyLshrUnmergeEmit, this, hc, EmitOp.isNarrowShift]

/-- Witness for C8 at `x = 2 ^ 40 + 12345`, `C = 37`. -/
theorem shiftSplitLshr_correct_witness :
    (2 ^ 40 + 12345 < 2 ^ 64 ∧ 32 ≤ 37 ∧ 37 ≤ 63) ∧
    (matchCombineShiftToUnmerge 64 32 false (some 37) = some 37 ∧
      applyLshrUnmerge 64 (2 ^ 40 + 12345) 37 = (2 ^ 40 + 12345) >>> 37 ∧
      (applyLshrUnmergeEmit 64 37).countP (fun e => e.isNarrowShift) =
        (if 37 = 32 then 0 else 1)) :=
  ⟨⟨by norm_num, by norm_num, by norm_num⟩,
    shiftSplitLshr_correct (2 ^ 40 + 12345) 37 (by norm_num) (by norm_num)
      (by norm_num)⟩

/-! ### C9: the maximum-length cap of `tryCombineMemCpyFamily` -/

/-- Claim C9: for every memcpy/memmove/memset whose length operand resolves
to a constant `L`, if the caller-supplied cap is non-zero and `L` exceeds it,
the combine returns `false` and leaves the instruction graph unchanged. -/
theorem memFamilyMaxLenCap (opc : MemFamilyOpc) (isVolatile : Bool)
    (knownLen maxLen limit : Nat) (dacc : Bool) (dAl sAl : Nat)
    (truncFree : Bool) (oty : Option LLTy) (al ft : LLTy → Nat → Bool)
    (hmax : maxLen ≠ 0) (hlen : maxLen < knownLen) :
    tryCombineMemCpyFamily opc isVolatile (some knownLen) maxLen limit dacc
      dAl sAl truncFree oty al ft = (.noChange, false) := by
  have hz : knownLen ≠ 0 := by omega
  cases isVolatile
  · simp [tryCombineMemCpyFamily, hz, hmax, hlen]
  · simp [tryCombineMemCpyFamily]

/-- Witness for C9: a length-100 memcpy against an 8-byte cap. -/
theorem memFamilyMaxLenCap_witness :
    ((8 : Nat) ≠ 0 ∧ (8 : Nat) < 100) ∧
    tryCombineMemCpyFamily .memcpyOpc false (some 100) 8 8 false 1 1 false
      none allTrueOracle allTrueOracle = (.noChange, false) :=
  ⟨⟨by norm_num, by norm_num⟩,
    memFamilyMaxLenCap .memcpyOpc false 100 8 8 false 1 1 false none
      allTrueOracle allTrueOracle (by norm_num) (by norm_num)⟩

/-! ### C6: register replacement when the constraint merge fails -/

/-- Counterexample to claim C6: on a concrete graph where the merge fails,
`replaceRegWith` allocates no fresh register (the register counter is
untouched) and the use of the replaced register `A = 0` in instruction 2 is
left in place rather than being redirected to a fresh value; the appended
instruction is `B = COPY A`, not a definition of a fresh register from `B`. -/
theorem replaceRegWithNoFreshValue :
    (replaceRegWith false exRepState 0 1).1.nextReg = exRepState.nextReg ∧
    (replaceRegWith false exRepState 0 1).1.instrs.get? 2 =
      some ⟨.other, 0, [0], false, 0⟩ ∧
    (replaceRegWith false exRepState 0 1).1.instrs.get? 3 =
      some ⟨.copyOp, 1, [1, 0], false, 0⟩ := by
  decide

/-- Amended claim C6: when the constraint merge of `A`'s attributes onto `B`
fails, the replacement appends a single `B = COPY A` instruction — no fresh
register is created and the uses of `A` are not redirected; when the merge
succeeds every operand occurrence of `A` is rewritten to `B`; both paths are
bracketed by the changing-all-uses / finished-changing-all-uses
notifications. -/
theorem replaceRegWithBehavior (s : MFState) (a b : Nat) :
    (replaceRegWith false s a b).1.instrs =
        s.instrs ++ [⟨.copyOp, 1, [b, a], false, 0⟩] ∧
    (replaceRegWith false s a b).1.nextReg = s.nextReg ∧
    (replaceRegWith true s a b).1.instrs = s.instrs.map (substReg a b) ∧
    (∀ ok : Bool, (replaceRegWith ok s a b).2 =
      [ObsEvent.changingAllUses a, ObsEvent.finishedChangingAllUses]) :=
  ⟨rfl, rfl, rfl, fun _ => rfl⟩

/-! ### C10: operand equality for results of one instruction -/

/-- If `defIdxIgnoringCopies` yields an index, that index holds an
instruction. -/
theorem defIdxIgnoringCopies_isSome (s : MFState) (fuel r i : Nat)
    (h : defIdxIgnoringCopies s fuel r = some i) :
    ∃ ins, s.instrs.get? i = some ins := by
  induction fuel generalizing r with
  | zero => simp [defIdxIgnoringCopies] at h
  | succ fuel ih =>
    simp only [defIdxIgnoringCopies] at h
    split at h
    · exact absurd h (by simp)
    · rename_i j hdef
      split at h
      · exact absurd h (by simp)
      · rename_i ins hins
        split at h
        · split at h
          · exact absurd h (by simp)
          · rename_i src hop
            split at h
            · obtain rfl : j = i := by simpa using h
              exact ⟨ins, hins⟩
            · exact ih src h
        · obtain rfl : j = i := by simpa using h
          exact ⟨ins, hins⟩

/-- Claim C10: when the defs of two register operands, looking through
copies, are the same instruction, `matchEqualDefs` reports them equal exactly
when they are literally the same register; in particular two distinct result
registers of one instruction are never considered equal. -/
theorem equalDefsSameInstr (produceSame : Instr → Instr → Bool) (s : MFState)
    (r1 r2 i : Nat)
    (h1 : defIdxIgnoringCopies s s.instrs.length r1 = some i)
    (h2 : defIdxIgnoringCopies s s.instrs.length r2 = some i) :
    (matchEqualDefs produceSame s (some r1) (some r2) = true ↔ r1 = r2) := by
  obtain ⟨ins, hins⟩ := defIdxIgnoringCopies_isSome s s.instrs.length r1 i h1
  simp only [matchEqualDefs, h1, h2, hins, if_pos rfl]
  exact ⟨fun h => by simpa using h, fun h => by simp [h]⟩

/-! ### C2: memmove emits all loads before all stores -/

theorem loadOffs_append (l1 l2 : List MemEvent) :
    loadOffs (l1 ++ l2) = loadOffs l1 ++ loadOffs l2 := by
  induction l1 with
  | nil => simp [loadOffs]
  | cons e r ih => cases e <;> simp [loadOffs, ih]

theorem storeOffs_append (l1 l2 : List MemEvent) :
    storeOffs (l1 ++ l2) = storeOffs l1 ++ storeOffs l2 := by
  induction l1 with
  | nil => simp [storeOffs]
  | cons e r ih => cases e <;> simp [storeOffs, ih]

theorem memmoveLoads_loadOffs (plan : List LLTy) (off idx : Nat) :
    loadOffs (memmoveLoads plan off idx) = chunkOffs plan off := by
  induction plan generalizing off idx with
  | nil => simp [memmoveLoads, loadOffs, chunkOffs]
  | cons t r ih =>
    by_cases h0 : off = 0 <;>
      simp [memmoveLoads, loadOffs, chunkOffs, h0, loadOffs_append, ih]

theorem memmoveStores_storeOffs (plan : List LLTy) (off idx : Nat) :
    storeOffs (memmoveStores plan off idx) = chunkOffs plan off := by
  induction plan generalizing off idx with
  | nil => simp [memmoveStores, storeOffs, chunkOffs]
  | cons t r ih =>
    by_cases h0 : off = 0 <;>
      simp [memmoveStores, storeOffs, chunkOffs, h0, storeOffs_append, ih]

theorem memmoveLoads_storeOffs (plan : List LLTy) (off idx : Nat) :
    storeOffs (memmoveLoads plan off idx) = [] := by
  induction plan generalizing off idx with
  | nil => simp [memmoveLoads, storeOffs]
  | cons t r ih =>
    by_cases h0 : off = 0 <;>
      simp [memmoveLoads, storeOffs, h0, storeOffs_append, ih]

theorem memmoveStores_loadOffs (plan : List LLTy) (off idx : Nat) :
    loadOffs (memmoveStores plan off idx) = [] := by
  induction plan generalizing off idx with
  | nil => simp [memmoveStores, loadOffs]
  | cons t r ih =>
    by_cases h0 : off = 0 <;>
      simp [memmoveStores, loadOffs, h0, loadOffs_append, ih]

/-- The load phase of the memmove emission contains no store events. -/
theorem memmoveLoads_no_store (plan : List LLTy) (off idx : Nat) :
    ∀ e ∈ memmoveLoads plan off idx, e.isStore = false := by
  induction plan generalizing off idx with
  | nil => simp [memmoveLoads]
  | cons t r ih =>
    intro e he
    by_cases h0 : off = 0
    · simp [memmoveLoads, h0] at he
      rcases he with rfl | he
      · simp [MemEvent.isStore]
      · exact ih _ _ e he
    · simp [memmoveLoads, h0] at he
      rcases he with rfl | rfl | rfl | he
      · simp [MemEvent.isStore]
      · simp [MemEvent.isStore]
      · simp [MemEvent.isStore]
      · exact ih _ _ e he

/-- The store phase of the memmove emission contains no load events. -/
theorem memmoveStores_no_load (plan : List LLTy) (off idx : Nat) :
    ∀ e ∈ memmoveStores plan off idx, e.isLoad = false := by
  induction plan generalizing off idx with
  | nil => simp [memmoveStores]
  | cons t r ih =>
    intro e he
    by_cases h0 : off = 0
    · simp [memmoveStores, h0] at he
      rcases he with rfl | he
      · simp [MemEvent.isLoad]
      · exact ih _ _ e he
    · simp [memmoveStores, h0] at he
      rcases he with rfl | rfl | rfl | he
      · simp [MemEvent.isLoad]
      · simp [MemEvent.isLoad]
      · simp [MemEvent.isLoad]
      · exact ih _ _ e he

/-- Claim C2: whenever the memmove lowering succeeds, every emitted load
appears strictly before every emitted store, and the stores visit the same
offsets and sizes in the same chunk order as the loads. -/
theorem memmoveLoadsBeforeStores (limit knownLen : Nat) (dacc : Bool)
    (dAl sAl : Nat) (oty : Option LLTy) (al ft : LLTy → Nat → Bool)
    (E : List MemEvent)
    (h : optimizeMemmove limit knownLen dacc dAl sAl oty al ft = some E) :
    (∀ i j ei ej, E.get? i = some ei → E.get? j = some ej →
        ei.isLoad = true → ej.isStore = true → i < j) ∧
    loadOffs E = storeOffs E := by
  simp only [optimizeMemmove] at h
  split at h
  · exact absurd h (by simp)
  · rename_i plan hplan
    obtain rfl : memmoveEmit plan = E := by simpa using h
    constructor
    · intro i j ei ej hi hj hload hstore
      by_cases hiL : i < (memmoveLoads plan 0 0).length
      · by_cases hjL : j < (memmoveLoads plan 0 0).length
        · rw [memmoveEmit, List.get?_append hjL] at hj
          have hs := memmoveLoads_no_store plan 0 0 ej (List.get?_mem hj)
          simp [hs] at hstore
        · omega
      · rw [memmoveEmit, List.get?_append_right (le_of_not_lt hiL)] at hi
        have hl := memmoveStores_no_load plan 0 0 ei (List.get?_mem hi)
        simp [hl] at hload
    · rw [memmoveEmit, loadOffs_append, storeOffs_append,
        memmoveLoads_loadOffs, memmoveStores_storeOffs, memmoveLoads_storeOffs,
        memmoveStores_loadOffs]
      simp

/-- Witness for C2 on the concrete length-7 memmove lowering. -/
theorem memmoveLoadsBeforeStores_witness :
    (optimizeMemmove 8 7 false 1 1 none allTrueOracle allTrueOracle =
      some memmoveExampleEvents) ∧
    ((∀ i j ei ej, memmoveExampleEvents.get? i = some ei →
        memmoveExampleEvents.get? j = some ej → ei.isLoad = true →
        ej.isStore = true → i < j) ∧
      loadOffs memmoveExampleEvents = storeOffs memmoveExampleEvents) :=
  ⟨by decide,
    memmoveLoadsBeforeStores 8 7 false 1 1 none allTrueOracle allTrueOracle
      memmoveExampleEvents (by decide)⟩

/-! ### C1: the extending-load preference tie-break -/

theorem isExtCand_ne_nonext (u : LoadUse) (h : isExtCand u = true) :
    u.kind ≠ .nonext := by
  intro hk
  simp [isExtCand, hk] at h

theorem prefBeats_irrefl (k : ExtKind) (t : Nat) : prefBeats k t k t = false := by
  simp only [prefBeats, decide_eq_false_iff_not]
  omega

theorem prefBeats_asymm {k1 k2 : ExtKind} {t1 t2 : Nat}
    (h : prefBeats k1 t1 k2 t2 = true) : prefBeats k2 t2 k1 t1 = false := by
  simp only [prefBeats, decide_eq_true_eq, decide_eq_false_iff_not] at *
  omega

theorem prefBeats_notbeat_trans {k1 k2 k3 : ExtKind} {t1 t2 t3 : Nat}
    (h1 : prefBeats k1 t1 k2 t2 = false) (h2 : prefBeats k2 t2 k3 t3 = false) :
    prefBeats k1 t1 k3 t3 = false := by
  simp only [prefBeats, decide_eq_false_iff_not] at *
  omega

/-- For a valid current preference, `ChoosePreferredUse` picks the candidate
exactly when the candidate strictly wins the spec's tie-break order. -/
theorem ChoosePreferredUse_valid (w : Nat) (k : ExtKind) (m : Option Nat)
    (t : Nat) (kc : ExtKind) (i : Nat) (hk : k ≠ .nonext) (hkc : kc ≠ .nonext) :
    ChoosePreferredUse ⟨some w, k, m⟩ t kc i =
      if prefBeats kc t k w then ⟨some t, kc, some i⟩ else ⟨some w, k, m⟩ := by
  cases k <;> cases kc <;>
    first
      | exact absurd rfl hk
      | exact absurd rfl hkc
      | (simp only [ChoosePreferredUse, prefBeats, definedRank, signRank]
         split_ifs <;> simp_all <;> omega)

/-- The initial (invalid-type, any-extend) preference of a plain `G_LOAD`
accepts the first candidate unconditionally. -/
theorem ChoosePreferredUse_init (t : Nat) (kc : ExtKind) (i : Nat) :
    ChoosePreferredUse ⟨none, .anyext, none⟩ t kc i = ⟨some t, kc, some i⟩ := by
  simp [ChoosePreferredUse]

/-- Invariant of the use scan from a valid current preference: the result is
valid, is the current preference or some candidate of the list, is not
beaten by the current preference, and is not beaten by any candidate of the
list. -/
theorem scanUses_valid (l : List LoadUse) (i w : Nat) (k : ExtKind)
    (m : Option Nat) (hk : k ≠ .nonext) :
    ∃ w' k' m', scanUses l i ⟨some w, k, m⟩ = ⟨some w', k', m'⟩ ∧
      k' ≠ .nonext ∧
      ((w' = w ∧ k' = k ∧ m' = m) ∨
        ∃ d u, l.get? d = some u ∧ isExtCand u = true ∧ w' = u.ty ∧
          k' = u.kind ∧ m' = some (i + d)) ∧
      prefBeats k w k' w' = false ∧
      ∀ v ∈ l, isExtCand v = true → prefBeats v.kind v.ty k' w' = false := by
  induction l generalizing i w k m with
  | nil =>
    exact ⟨w, k, m, rfl, hk, Or.inl ⟨rfl, rfl, rfl⟩, prefBeats_irrefl k w, by simp⟩
  | cons u rest ih =>
    by_cases hc : isExtCand u = true
    · have hn := isExtCand_ne_nonext u hc
      have hstep : scanUses (u :: rest) i ⟨some w, k, m⟩ =
          scanUses rest (i + 1) (ChoosePreferredUse ⟨some w, k, m⟩ u.ty u.kind i) := by
        simp [scanUses, hc]
      rw [hstep, ChoosePreferredUse_valid w k m u.ty u.kind i hk hn]
      by_cases hb : prefBeats u.kind u.ty k w = true
      · rw [if_pos hb]
        obtain ⟨w', k', m', hscan, hk', hmem, hge, hall⟩ :=
          ih (i + 1) u.ty u.kind (some i) hn
        refine ⟨w', k', m', hscan, hk', ?_, ?_, ?_⟩
        · rcases hmem with ⟨rfl, rfl, rfl⟩ | ⟨d, v, hd, hcv, h1, h2, h3⟩
          · exact Or.inr ⟨0, u, rfl, hc, rfl, rfl, by simp⟩
          · refine Or.inr ⟨d + 1, v, by simpa using hd, hcv, h1, h2, ?_⟩
            rw [h3]
            congr 1
            omega
        · exact prefBeats_notbeat_trans (prefBeats_asymm hb) hge
        · intro v hv hcv
          rcases List.mem_cons.mp hv with rfl | hv
          · exact hge
          · exact hall v hv hcv
      · rw [if_neg hb]
        obtain ⟨w', k', m', hscan, hk', hmem, hge, hall⟩ := ih (i + 1) w k m hk
        refine ⟨w', k', m', hscan, hk', ?_, hge, ?_⟩
        · rcases hmem with hl | ⟨d, v, hd, hcv, h1, h2, h3⟩
          · exact Or.inl hl
          · refine Or.inr ⟨d + 1, v, by simpa using hd, hcv, h1, h2, ?_⟩
            rw [h3]
            congr 1
            omega
        · intro v hv hcv
          rcases List.mem_cons.mp hv with rfl | hv
          · exact prefBeats_notbeat_trans (by simpa using hb) hge
          · exact hall v hv hcv
    · have hstep : scanUses (u :: rest) i ⟨some w, k, m⟩ =
          scanUses rest (i + 1) ⟨some w, k, m⟩ := by
        simp [scanUses, hc]
      rw [hstep]
      obtain ⟨w', k', m', hscan, hk', hmem, hge, hall⟩ := ih (i + 1) w k m hk
      refine ⟨w', k', m', hscan, hk', ?_, hge, ?_⟩
      · rcases hmem with hl | ⟨d, v, hd, hcv, h1, h2, h3⟩
        · exact Or.inl hl
        · refine Or.inr ⟨d + 1, v, by simpa using hd, hcv, h1, h2, ?_⟩
          rw [h3]
          congr 1
          omega
      · intro v hv hcv
        rcases List.mem_cons.mp hv with rfl | hv
        · exact absurd hcv hc
        · exact hall v hv hcv

/-- The use scan of a plain `G_LOAD` either finds no candidate (and keeps the
null preference) or returns the (kind, width) of a candidate that no
candidate in the list strictly beats under the spec tie-break. -/
theorem scanUses_gload (l : List LoadUse) (i : Nat) :
    (scanUses l i ⟨none, .anyext, none⟩ = ⟨none, .anyext, none⟩ ∧
      ∀ u ∈ l, isExtCand u = false) ∨
    ∃ d u, l.get? d = some u ∧ isExtCand u = true ∧
      scanUses l i ⟨none, .anyext, none⟩ = ⟨some u.ty, u.kind, some (i + d)⟩ ∧
      ∀ v ∈ l, isExtCand v = true → prefBeats v.kind v.ty u.kind u.ty = false := by
  induction l generalizing i with
  | nil => exact Or.inl ⟨rfl, by simp⟩
  | cons u rest ih =>
    by_cases hc : isExtCand u = true
    · right
      have hn := isExtCand_ne_nonext u hc
      have hstep : scanUses (u :: rest) i ⟨none, .anyext, none⟩ =
          scanUses rest (i + 1) ⟨some u.ty, u.kind, some i⟩ := by
        simp [scanUses, hc, ChoosePreferredUse_init]
      obtain ⟨w', k', m', hscan, hk', hmem, hge, hall⟩ :=
        scanUses_valid rest (i + 1) u.ty u.kind (some i) hn
      rcases hmem with ⟨rfl, rfl, rfl⟩ | ⟨d, v, hd, hcv, h1, h2, h3⟩
      · refine ⟨0, u, rfl, hc, ?_, ?_⟩
        · rw [hstep, hscan]
          simp
        · intro v hv hcv
          rcases List.mem_cons.mp hv with rfl | hv
          · exact hge
          · exact hall v hv hcv
      · subst h1; subst h2; subst h3
        refine ⟨d + 1, v, by simpa using hd, hcv, ?_, ?_⟩
        · rw [hstep, hscan]
          congr 2
          omega
        · intro x hx hcx
          rcases List.mem_cons.mp hx with rfl | hx
          · exact hge
          · exact hall x hx hcx
    · have hstep : scanUses (u :: rest) i ⟨none, .anyext, none⟩ =
          scanUses rest (i + 1) ⟨none, .anyext, none⟩ := by
        simp [scanUses, hc]
      rcases ih (i + 1) with ⟨heq, hnone⟩ | ⟨d, v, hd, hcv, hscan, hall⟩
      · left
        refine ⟨by rw [hstep, heq], ?_⟩
        intro x hx
        rcases List.mem_cons.mp hx with rfl | hx
        · simpa using hc
        · exact hnone x hx
      · right
        refine ⟨d + 1, v, by simpa using hd, hcv, ?_, ?_⟩
        · rw [hstep, hscan]
          congr 2
          omega
        · intro x hx hcx
          rcases List.mem_cons.mp hx with rfl | hx
          · exact absurd hcx hc
          · exact hall x hx hcx

/-- Counterexample to claim C1: a sign-extending load (`G_SEXTLOAD`) whose
result has one zero-extend use passing the legality query selects no
preferred extension at all — the match abstains instead of applying the
claimed tie-break. -/
theorem sextloadZextNoSelection :
    isExtCand ⟨.zext, 64, true⟩ = true ∧
    matchCombineExtendingLoads .gSextload (.scalar 8) [⟨.zext, 64, true⟩] =
      none := by
  decide

/-- Amended claim C1: for a plain (`G_LOAD`) load whose result has at least
one extend use passing the legality query, the combine selects exactly one
preferred extension, one of the candidate uses, and no legal candidate
strictly beats it under the deterministic tie-break (defined beats any-extend,
then larger destination width, then sign beats zero at equal width); for
sign- or zero-extending loads, candidates of a kind other than the load's own
extension kind are discarded while no candidate has been accepted, so the
match may select nothing even when a legal extend use exists. -/
theorem extendingLoadPreference (loadTy : LLTy) (uses : List LoadUse)
    (hscalar : loadTy.isScalar = true) (hge : 8 ≤ loadTy.sizeInBits)
    (hpow : isPow2 loadTy.sizeInBits = true)
    (hcand : ∃ u ∈ uses, isExtCand u = true) :
    ∃ d u, uses.get? d = some u ∧ isExtCand u = true ∧
      matchCombineExtendingLoads .gLoad loadTy uses =
        some ⟨some u.ty, u.kind, some d⟩ ∧
      ∀ v ∈ uses, isExtCand v = true →
        prefBeats v.kind v.ty u.kind u.ty = false := by
  rcases scanUses_gload uses 0 with ⟨heq, hnone⟩ | ⟨d, u, hd, hcu, hscan, hall⟩
  · obtain ⟨u, hu, hcu⟩ := hcand
    rw [hnone u hu] at hcu
    exact absurd hcu (by simp)
  · refine ⟨d, u, hd, hcu, ?_, hall⟩
    have hd0 : (0 : Nat) + d = d := by omega
    rw [hd0] at hscan
    have hlt : ¬ loadTy.sizeInBits < 8 := by omega
    simp [matchCombineExtendingLoads, hscalar, hpow, hlt, preferredOpcodeFor, hscan]

/-- Witness for the amended C1: a load with legal any-extend (64), sign-extend
(32) and zero-extend (32) uses plus a non-extend use selects the 32-bit
sign extend at index 1. -/
theorem extendingLoadPreference_witness :
    ((LLTy.scalar 8).isScalar = true ∧ 8 ≤ (LLTy.scalar 8).sizeInBits ∧
      isPow2 (LLTy.scalar 8).sizeInBits = true ∧
      ∃ u ∈ ([⟨.anyext, 64, true⟩, ⟨.sext, 32, true⟩, ⟨.nonext, 0, false⟩,
        ⟨.zext, 32, true⟩] : List LoadUse), isExtCand u = true) ∧
    ∃ d u, ([⟨.anyext, 64, true⟩, ⟨.sext, 32, true⟩, ⟨.nonext, 0, false⟩,
        ⟨.zext, 32, true⟩] : List LoadUse).get? d = some u ∧
      isExtCand u = true ∧
      matchCombineExtendingLoads .gLoad (.scalar 8)
        [⟨.anyext, 64, true⟩, ⟨.sext, 32, true⟩, ⟨.nonext, 0, false⟩,
          ⟨.zext, 32, true⟩] = some ⟨some u.ty, u.kind, some d⟩ ∧
      ∀ v ∈ ([⟨.anyext, 64, true⟩, ⟨.sext, 32, true⟩, ⟨.nonext, 0, false⟩,
        ⟨.zext, 32, true⟩] : List LoadUse), isExtCand v = true →
        prefBeats v.kind v.ty u.kind u.ty = false :=
  ⟨⟨by decide, by decide, by decide, ⟨⟨.anyext, 64, true⟩, by decide, by decide⟩⟩,
    extendingLoadPreference (.scalar 8) _ (by decide) (by decide) (by decide)
      ⟨⟨.anyext, 64, true⟩, by decide, by decide⟩⟩

/-! ### C5: the concat-vectors matcher mutates the graph -/

/-- Counterexample to claim C5: on `exConcatState` the match function
`matchCombineConcatVectors` returns `false` and yet changes the instruction
graph (it materializes an undef instruction before inspecting the operand
that makes the match fail). -/
theorem concatMatchMutates :
    (matchCombineConcatVectors exConcatState exConcatMI).ok = false ∧
    (matchCombineConcatVectors exConcatState exConcatMI).state ≠ exConcatState := by
  decide

theorem find?_append_single (l : List Instr) (u : Instr) (p : Instr → Bool)
    (hu : p u = false) : (l ++ [u]).find? p = l.find? p := by
  induction l with
  | nil => simp [List.find?, hu]
  | cons a r ih =>
    by_cases ha : p a <;> simp [List.find?, ha, ih]

/-- Appending a fresh undef instruction does not change the def lookup of any
other register. -/
theorem defInstrOf_buildUndef (s : MFState) (b r : Nat) (hr : r ≠ s.nextReg) :
    defInstrOf (buildUndefScalar s b) r = defInstrOf s r := by
  simp only [defInstrOf, buildUndefScalar]
  exact find?_append_single _ _ _ (by
    simp [Instr.defs, List.contains]
    exact hr)

/-- The pure boolean outcome is stable under materializing a fresh undef. -/
theorem concatOk_buildUndef (s : MFState) (b : Nat) (rs : List Nat)
    (h : ∀ r ∈ rs, r < s.nextReg) :
    concatOk (buildUndefScalar s b) rs = concatOk s rs := by
  induction rs with
  | nil => rfl
  | cons r rest ih =>
    have hr : r < s.nextReg := h r (by simp)
    simp only [concatOk, List.all_cons]
    rw [defInstrOf_buildUndef s b r (by omega)]
    have := ih (fun x hx => h x (by simp [hx]))
    simp only [concatOk] at this
    rw [this]

/-- The boolean result of the operand scan equals `concatOk` of the original
graph (the materialized undefs define only fresh registers and cannot affect
the def lookups of the scanned operands). -/
theorem concatScan_ok (l : List Nat) (s : MFState) (undef : Option Nat)
    (isU : Bool) (acc : List Nat) (hl : ∀ r ∈ l, r < s.nextReg) :
    (concatScan undef isU acc s l).ok = concatOk s l := by
  induction l generalizing s undef isU acc with
  | nil => simp [concatScan, concatOk]
  | cons r rest ih =>
    have hr : r < s.nextReg := hl r (by simp)
    have hrest : ∀ x ∈ rest, x < s.nextReg := fun x hx => hl x (by simp [hx])
    simp only [concatScan]
    rcases hdef : defInstrOf s r with _ | d
    · simp [concatOk, hdef]
    · rcases hop : d.opcode
      case gBuildVector =>
        have hih := ih s undef false (acc ++ d.uses) hrest
        simp [concatOk, hdef, hop, hih]
      case gImplicitDef =>
        rcases undef with _ | ur
        · have hrest' : ∀ x ∈ rest,
              x < (buildUndefScalar s (getType s r).scalarBits).nextReg := by
            intro x hx
            have := hrest x hx
            simp only [buildUndefScalar]
            omega
          have hih := ih (buildUndefScalar s (getType s r).scalarBits)
            (some s.nextReg) isU
            (acc ++ List.replicate (getType s r).numElts s.nextReg) hrest'
          have hstab := concatOk_buildUndef s (getType s r).scalarBits rest hrest
          simp only [hdef, hop]
          rw [hih, hstab]
          simp [concatOk, hdef, hop]
        · have hih := ih s (some ur) isU
            (acc ++ List.replicate (getType s r).numElts ur) hrest
          simp [concatOk, hdef, hop, hih]
      all_goals simp [concatOk, hdef, hop]

/-- With an already-materialized undef the scan never mutates the state. -/
theorem concatScan_state_some (l : List Nat) (s : MFState) (ur : Nat)
    (isU : Bool) (acc : List Nat) :
    (concatScan (some ur) isU acc s l).state = s := by
  induction l generalizing s isU acc with
  | nil => rfl
  | cons r rest ih =>
    simp only [concatScan]
    rcases hdef : defInstrOf s r with _ | d
    · simp [hdef]
    · rcases hop : d.opcode <;> simp [hdef, hop, ih]

/-- The scan leaves the graph unchanged or appends exactly one scalar undef
instruction. -/
theorem concatScan_state_none (l : List Nat) (s : MFState) (isU : Bool)
    (acc : List Nat) :
    (concatScan none isU acc s l).state = s ∨
    ∃ b, (concatScan none isU acc s l).state = buildUndefScalar s b := by
  induction l generalizing s isU acc with
  | nil => exact Or.inl rfl
  | cons r rest ih =>
    simp only [concatScan]
    rcases hdef : defInstrOf s r with _ | d
    · left; simp [hdef]
    · rcases hop : d.opcode
      case gBuildVector => simpa [hdef, hop] using ih s false (acc ++ d.uses)
      case gImplicitDef =>
        right
        refine ⟨(getType s r).scalarBits, ?_⟩
        simp only [hdef, hop]
        exact concatScan_state_some rest _ _ isU _
      all_goals (left; simp [hdef, hop])

/-- Amended claim C5: `matchCombineConcatVectors` never modifies or deletes
existing instructions, but it is not read-only — it may append exactly one
fresh scalar implicit-def instruction (with a fresh register and type entry)
when an operand is undef-defined, even when the match then returns `false`;
the boolean match result is nevertheless stable: re-running the matcher on
the mutated graph returns the same boolean. -/
theorem concatMatchMutation (s : MFState) (mi : Instr)
    (h : ∀ r ∈ mi.uses, r < s.nextReg) :
    ((matchCombineConcatVectors s mi).state = s ∨
      ∃ b, (matchCombineConcatVectors s mi).state = buildUndefScalar s b) ∧
    (matchCombineConcatVectors (matchCombineConcatVectors s mi).state mi).ok =
      (matchCombineConcatVectors s mi).ok := by
  refine ⟨concatScan_state_none mi.uses s true [], ?_⟩
  have h1 : (matchCombineConcatVectors s mi).ok = concatOk s mi.uses :=
    concatScan_ok mi.uses s none true [] h
  rcases concatScan_state_none mi.uses s true [] with hs | ⟨b, hs⟩
  · have hs' : (matchCombineConcatVectors s mi).state = s := hs
    rw [hs']
  · have hs' : (matchCombineConcatVectors s mi).state = buildUndefScalar s b := hs
    rw [hs']
    have h2 : ∀ r ∈ mi.uses, r < (buildUndefScalar s b).nextReg := by
      intro x hx
      have := h x hx
      simp only [buildUndefScalar]
      omega
    have h3 : (matchCombineConcatVectors (buildUndefScalar s b) mi).ok =
        concatOk (buildUndefScalar s b) mi.uses :=
      concatScan_ok mi.uses _ none true [] h2
    rw [h3, concatOk_buildUndef s b mi.uses h, ← h1]

/-- Witness for the amended C5 on the concrete concat-vectors input. -/
theorem concatMatchMutation_witness :
    (∀ r ∈ exConcatMI.uses, r < exConcatState.nextReg) ∧
    (((matchCombineConcatVectors exConcatState exConcatMI).state = exConcatState ∨
        ∃ b, (matchCombineConcatVectors exConcatState exConcatMI).state =
          buildUndefScalar exConcatState b) ∧
      (matchCombineConcatVectors
          (matchCombineConcatVectors exConcatState exConcatMI).state
          exConcatMI).ok =
        (matchCombineConcatVectors exConcatState exConcatMI).ok) :=
  ⟨by decide, concatMatchMutation exConcatState exConcatMI (by decide)⟩

/-! ### C3: post-index candidate dominance conditions -/

/-- Soundness of the candidate scan of `findPostIndexCandidate`: a returned
candidate is a `G_PTR_ADD` user in the scanned list that passed the legality
query, its offset has a def dominating the memory access, and the memory
access dominates every use of the pointer-add's result. -/
theorem scanPostCandidates_sound (mdt : Option (Nat → Nat → Bool))
    (legalIdx : Nat → Nat → Bool) (force : Bool) (s : MFState) (mi base : Nat)
    (l : List Nat) (addr off : Nat)
    (h : scanPostCandidates mdt legalIdx force s mi base l = some (addr, off)) :
    (∃ c ∈ l, ∃ ci, s.instrs.get? c = some ci ∧ ci.opcode = .gPtrAdd ∧
        ci.getOp 0 = some addr ∧ ci.getOp 2 = some off ∧
        (force = true ∨ legalIdx base off = true)) ∧
    (∃ od, defIndexOf s off = some od ∧ dominatesMI mdt s od mi = true) ∧
    (∀ u ∈ useInstrIdxs s addr, dominatesMI mdt s mi u = true) := by
  induction l with
  | nil => simp [scanPostCandidates] at h
  | cons c rest ih =>
    simp only [scanPostCandidates] at h
    split at h
    · obtain ⟨⟨c', hc', hrest⟩, h2, h3⟩ := ih h
      exact ⟨⟨c', List.mem_cons_of_mem _ hc', hrest⟩, h2, h3⟩
    · rename_i ci hci
      split at h
      · obtain ⟨⟨c', hc', hrest⟩, h2, h3⟩ := ih h
        exact ⟨⟨c', List.mem_cons_of_mem _ hc', hrest⟩, h2, h3⟩
      · rename_i hopc
        split at h
        · rename_i off0 addr0 hoff0 haddr0
          split at h
          · obtain ⟨⟨c', hc', hrest⟩, h2, h3⟩ := ih h
            exact ⟨⟨c', List.mem_cons_of_mem _ hc', hrest⟩, h2, h3⟩
          · rename_i hlegal
            split at h
            · obtain ⟨⟨c', hc', hrest⟩, h2, h3⟩ := ih h
              exact ⟨⟨c', List.mem_cons_of_mem _ hc', hrest⟩, h2, h3⟩
            · rename_i offDef hoffDef
              split at h
              · obtain ⟨⟨c', hc', hrest⟩, h2, h3⟩ := ih h
                exact ⟨⟨c', List.mem_cons_of_mem _ hc', hrest⟩, h2, h3⟩
              · rename_i hdom
                split at h
                · rename_i hall
                  simp only [Option.some.injEq, Prod.mk.injEq] at h
                  obtain ⟨rfl, rfl⟩ := h
                  refine ⟨⟨c, List.mem_cons_self _ _, ci, hci, by simpa using hopc,
                    haddr0, hoff0, by cases hf : force <;> simp_all⟩,
                    ⟨offDef, hoffDef, by simpa using hdom⟩, ?_⟩
                  intro u hu
                  exact List.all_eq_true.mp hall u hu
                · obtain ⟨⟨c', hc', hrest⟩, h2, h3⟩ := ih h
                  exact ⟨⟨c', List.mem_cons_of_mem _ hc', hrest⟩, h2, h3⟩
        · obtain ⟨⟨c', hc', hrest⟩, h2, h3⟩ := ih h
          exact ⟨⟨c', List.mem_cons_of_mem _ hc', hrest⟩, h2, h3⟩

/-- Claim C3: a post-index candidate is accepted only if it is a legal
`G_PTR_ADD` user of the base whose offset is defined by an instruction
dominating the memory access (the offset is computable before or at the
access), and only if the memory access dominates every use of the
pointer-add's result. -/
theorem postIndexDominance (mdt : Option (Nat → Nat → Bool))
    (legalIdx : Nat → Nat → Bool) (force : Bool) (s : MFState)
    (mi addr base off : Nat)
    (h : findPostIndexCandidate mdt legalIdx force s mi = some (addr, base, off)) :
    (∃ c ∈ useInstrIdxs s base, ∃ ci, s.instrs.get? c = some ci ∧
        ci.opcode = .gPtrAdd ∧ ci.getOp 0 = some addr ∧ ci.getOp 2 = some off ∧
        (force = true ∨ legalIdx base off = true)) ∧
    (∃ od, defIndexOf s off = some od ∧ dominatesMI mdt s od mi = true) ∧
    (∀ u ∈ useInstrIdxs s addr, dominatesMI mdt s mi u = true) := by
  simp only [findPostIndexCandidate] at h
  split at h
  · exact absurd h (by simp)
  · rename_i mIns hmi
    split at h
    · exact absurd h (by simp)
    · rename_i base0 hbase0
      split at h
      · exact absurd h (by simp)
      · split at h
        · rename_i addr0 off0 hscan
          simp only [Option.some.injEq, Prod.mk.injEq] at h
          obtain ⟨rfl, rfl, rfl⟩ := h
          exact scanPostCandidates_sound _ _ _ _ _ _ _ _ _ hscan
        · exact absurd h (by simp)

/-- Witness for C3 on the concrete block `exPostState`. -/
theorem postIndexDominance_witness :
    (findPostIndexCandidate (some lineDom) legalAlways false exPostState 2 =
      some (3, 0, 1)) ∧
    ((∃ c ∈ useInstrIdxs exPostState 0, ∃ ci, exPostState.instrs.get? c = some ci ∧
        ci.opcode = .gPtrAdd ∧ ci.getOp 0 = some 3 ∧ ci.getOp 2 = some 1 ∧
        (false = true ∨ legalAlways 0 1 = true)) ∧
      (∃ od, defIndexOf exPostState 1 = some od ∧
        dominatesMI (some lineDom) exPostState od 2 = true) ∧
      (∀ u ∈ useInstrIdxs exPostState 3,
        dominatesMI (some lineDom) exPostState 2 u = true)) :=
  ⟨by decide,
    postIndexDominance (some lineDom) legalAlways false exPostState 2 3 0 1 (by decide)⟩

/-! ### C4: pre-index candidate requirements -/

/-- Counterexample to claim C4: on `exPreState` the address register 2 is
used both by the memory access (instruction 3) and by instruction 4, yet
`findPreIndexCandidate` accepts the candidate — the search requires the
address to have *more* than one non-debug use and does not abstain when the
address has another use. -/
theorem preIndexAcceptsSecondUse :
    findPreIndexCandidate (some lineDom) legalAlways false exPreState 3 =
      some (2, 0, 1) ∧
    useInstrIdxs exPreState 2 = [3, 4] ∧
    useCount exPreState 2 = 2 := by
  decide

/-- Amended claim C4: a pre-index candidate is formed only when the address
operand is (through copies) the result of a `G_PTR_ADD` and the address
register has at least one non-debug use besides the memory access (the
search abstains when the access is the address's only non-debug use), and
only when the memory access dominates every non-debug use of the address. -/
theorem preIndexRequirements (mdt : Option (Nat → Nat → Bool))
    (legalIdx : Nat → Nat → Bool) (force : Bool) (s : MFState)
    (mi addr base off : Nat)
    (h : findPreIndexCandidate mdt legalIdx force s mi = some (addr, base, off)) :
    (∃ mIns, s.instrs.get? mi = some mIns ∧ mIns.getOp 1 = some addr) ∧
    (∃ ai aIns, getOpcodeDefIdx s .gPtrAdd addr = some ai ∧
        s.instrs.get? ai = some aIns ∧ aIns.getOp 1 = some base ∧
        aIns.getOp 2 = some off) ∧
    hasOneNonDBGUse s addr = false ∧
    (∀ u ∈ useInstrIdxs s addr, dominatesMI mdt s mi u = true) := by
  simp only [findPreIndexCandidate] at h
  split at h
  · exact absurd h (by simp)
  · rename_i mIns hmi
    split at h
    · exact absurd h (by simp)
    · rename_i addr0 haddr0
      split at h
      · exact absurd h (by simp)
      · rename_i ai hai
        split at h
        · exact absurd h (by simp)
        · rename_i aIns haIns
          split at h
          · rename_i base0 off0 hbase0 hoff0
            split at h
            · exact absurd h (by simp)
            · rename_i honeuse
              split at h
              · exact absurd h (by simp)
              · rename_i hlegal
                split at h
                · exact absurd h (by simp)
                · split at h
                  · exact absurd h (by simp)
                  · split at h
                    · exact absurd h (by simp)
                    · split at h
                      · rename_i hall
                        simp only [Option.some.injEq, Prod.mk.injEq] at h
                        obtain ⟨rfl, rfl, rfl⟩ := h
                        refine ⟨⟨mIns, hmi, haddr0⟩, ⟨ai, aIns, hai, haIns, hbase0, hoff0⟩,
                          by simpa using honeuse, ?_⟩
                        intro u hu
                        exact List.all_eq_true.mp hall u hu
                      · exact absurd h (by simp)
          · exact absurd h (by simp)

/-- Witness for the amended C4 on the concrete block `exPreState`. -/
theorem preIndexRequirements_witness :
    (findPreIndexCandidate (some lineDom) legalAlways false exPreState 3 =
      some (2, 0, 1)) ∧
    ((∃ mIns, exPreState.instrs.get? 3 = some mIns ∧ mIns.getOp 1 = some 2) ∧
      (∃ ai aIns, getOpcodeDefIdx exPreState .gPtrAdd 2 = some ai ∧
        exPreState.instrs.get? ai = some aIns ∧ aIns.getOp 1 = some 0 ∧
        aIns.getOp 2 = some 1) ∧
      hasOneNonDBGUse exPreState 2 = false ∧
      (∀ u ∈ useInstrIdxs exPreState 2,
        dominatesMI (some lineDom) exPreState 3 u = true)) :=
  ⟨by decide,
    preIndexRequirements (some lineDom) legalAlways false exPreState 3 2 0 1 (by decide)⟩

/-! ### C7: memmove planning versus memcpy planning -/

/-- Counterexample to claim C7: with identical length, alignments and
target-policy answers (overlap-fast everywhere), the memcpy planning takes
an overlapping 4-byte tail for length 7 while the memmove planning (which
passes volatile to disable overlap) peels exact power-of-two chunks — the
chunk sequences and the emitted store offsets differ. -/
theorem memmovePlanDiffersFromMemcpy :
    findGISelOptimalMemOpLowering 8 (MemOpDesc.copy 7 false 1 1 false) none
        allTrueOracle allTrueOracle = some [LLTy.scalar 32, LLTy.scalar 32] ∧
    findGISelOptimalMemOpLowering 8 (MemOpDesc.copy 7 false 1 1 true) none
        allTrueOracle allTrueOracle =
      some [LLTy.scalar 32, LLTy.scalar 16, LLTy.scalar 8] ∧
    (optimizeMemcpy 8 7 false 1 1 false none allTrueOracle allTrueOracle).map
        storeOffs ≠
      (optimizeMemmove 8 7 false 1 1 none allTrueOracle allTrueOracle).map
        storeOffs := by
  decide

theorem initTyLoop_overlap_irrel (allowed : LLTy → Nat → Bool)
    (op : MemOpDesc) (x : Bool) :
    ∀ (fuel : Nat) (ty : LLTy),
      initTyLoop allowed { op with allowOverlap := x } fuel ty =
        initTyLoop allowed op fuel ty := by
  intro fuel
  induction fuel with
  | zero => intro ty; rfl
  | succ fuel ih =>
    intro ty
    simp [initTyLoop, MemOpDesc.isFixedDstAlign, ih]

/-- When the fast-misaligned-access oracle always answers no, the overlap
permission has no effect on the chunk-shrinking loop. -/
theorem shrinkTy_overlap_irrel (fast : LLTy → Nat → Bool)
    (hf : ∀ t a, fast t a = false) (op : MemOpDesc) (x : Bool) (n : Nat) :
    ∀ (fuel : Nat) (ty : LLTy) (size : Nat),
      shrinkTy fast { op with allowOverlap := x } n fuel ty size =
        shrinkTy fast op n fuel ty size := by
  intro fuel
  induction fuel with
  | zero => intro ty size; rfl
  | succ fuel ih =>
    intro ty size
    simp [shrinkTy, hf, MemOpDesc.isFixedDstAlign, ih]

theorem planLoop_overlap_irrel (fast : LLTy → Nat → Bool)
    (hf : ∀ t a, fast t a = false) (op : MemOpDesc) (x : Bool) (limit : Nat) :
    ∀ (fuel : Nat) (ty : LLTy) (size n : Nat) (acc : List LLTy),
      planLoop fast { op with allowOverlap := x } limit fuel ty size n acc =
        planLoop fast op limit fuel ty size n acc := by
  intro fuel
  induction fuel with
  | zero => intros; rfl
  | succ fuel ih =>
    intro ty size n acc
    by_cases hs : size = 0
    · simp [planLoop, hs]
    · simp only [planLoop, if_neg hs,
        shrinkTy_overlap_irrel fast hf op x n]
      split
      · rfl
      · split
        · rfl
        · exact ih _ _ _ _

theorem findGISel_overlap_irrel (limit : Nat) (op : MemOpDesc) (x : Bool)
    (oty : Option LLTy) (al fast : LLTy → Nat → Bool)
    (hf : ∀ t a, fast t a = false) :
    findGISelOptimalMemOpLowering limit { op with allowOverlap := x } oty al fast =
      findGISelOptimalMemOpLowering limit op oty al fast := by
  cases oty with
  | some t =>
    simp [findGISelOptimalMemOpLowering, MemOpDesc.isMemcpyWithFixedDstAlign,
      planLoop_overlap_irrel fast hf op x limit]
  | none =>
    simp [findGISelOptimalMemOpLowering, MemOpDesc.isMemcpyWithFixedDstAlign,
      planLoop_overlap_irrel fast hf op x limit,
      initTyLoop_overlap_irrel al op x]

/-- With a negative fast oracle every chunk accepted by the shrinking loop
fits the remaining length exactly (no overlap exit). -/
theorem shrinkTy_no_overlap (fast : LLTy → Nat → Bool)
    (hf : ∀ t a, fast t a = false) (op : MemOpDesc) (n : Nat) :
    ∀ (fuel : Nat) (ty : LLTy) (size : Nat) (ty' : LLTy) (b : Nat),
      shrinkTy fast op n fuel ty size = some (ty', b) →
      b = ty'.sizeInBytes ∧ b ≤ size := by
  intro fuel
  induction fuel with
  | zero => intro ty size ty' b h; simp [shrinkTy] at h
  | succ fuel ih =>
    intro ty size ty' b h
    simp only [shrinkTy, hf, Bool.and_false, Bool.false_eq_true, if_false] at h
    by_cases hle : ty.sizeInBytes ≤ size
    · rw [if_pos hle] at h
      simp only [Option.some.injEq, Prod.mk.injEq] at h
      obtain ⟨rfl, rfl⟩ := h
      exact ⟨rfl, hle⟩
    · rw [if_neg hle] at h
      repeat' split at h
      all_goals
        first
          | exact absurd h (by simp)
          | exact ih _ _ _ _ h

/-- With a negative fast oracle every plan produced by the chunking loop
fits the remaining length. -/
theorem planLoop_fits (fast : LLTy → Nat → Bool)
    (hf : ∀ t a, fast t a = false) (op : MemOpDesc) (limit : Nat) :
    ∀ (fuel : Nat) (ty : LLTy) (size n : Nat) (acc res : List LLTy),
      planLoop fast op limit fuel ty size n acc = some res →
      ∃ tail, res = acc ++ tail ∧ fitsPlan tail size = true := by
  intro fuel
  induction fuel with
  | zero => intro ty size n acc res h; simp [planLoop] at h
  | succ fuel ih =>
    intro ty size n acc res h
    by_cases hs : size = 0
    · simp only [planLoop, if_pos hs, Option.some.injEq] at h
      exact ⟨[], by simp [← h], by simp [fitsPlan]⟩
    · simp only [planLoop, if_neg hs] at h
      split at h
      · exact absurd h (by simp)
      · rename_i ty2 b2 hshrink
        obtain ⟨hb, hle⟩ := shrinkTy_no_overlap fast hf op n _ _ _ _ _ hshrink
        split at h
        · exact absurd h (by simp)
        · obtain ⟨tail, rfl, hfits⟩ := ih _ _ _ _ _ h
          refine ⟨ty2 :: tail, by simp, ?_⟩
          subst hb
          simp [fitsPlan, hle, hfits]

theorem findGISel_fits (limit : Nat) (op : MemOpDesc) (oty : Option LLTy)
    (al fast : LLTy → Nat → Bool) (hf : ∀ t a, fast t a = false)
    (plan : List LLTy)
    (h : findGISelOptimalMemOpLowering limit op oty al fast = some plan) :
    fitsPlan plan op.size = true := by
  simp only [findGISelOptimalMemOpLowering] at h
  split at h
  · exact absurd h (by simp)
  · obtain ⟨tail, htail, hfits⟩ := planLoop_fits fast hf op limit _ _ _ _ _ _ h
    simp only [List.nil_append] at htail
    rwa [htail]

/-- For a fitting plan the memcpy emission never takes the backward offset
adjustment, so its load offsets are the plain prefix sums. -/
theorem memcpyEmit_loadOffs (plan : List LLTy) :
    ∀ (off size idx : Nat), fitsPlan plan size = true →
      loadOffs (memcpyEmit plan off size idx) = chunkOffs plan off := by
  induction plan with
  | nil => intro off size idx _; simp [memcpyEmit, loadOffs, chunkOffs]
  | cons t r ih =>
    intro off size idx hfit
    simp only [fitsPlan, Bool.and_eq_true, decide_eq_true_eq] at hfit
    obtain ⟨hle, hfit'⟩ := hfit
    have hno : ¬ size < t.sizeInBytes := by omega
    by_cases h0 : off = 0 <;>
      simp [memcpyEmit, hno, h0, loadOffs_append, loadOffs, chunkOffs,
        ih _ _ _ hfit']

/-- For a fitting plan the memcpy emission stores at the same prefix-sum
offsets. -/
theorem memcpyEmit_storeOffs (plan : List LLTy) :
    ∀ (off size idx : Nat), fitsPlan plan size = true →
      storeOffs (memcpyEmit plan off size idx) = chunkOffs plan off := by
  induction plan with
  | nil => intro off size idx _; simp [memcpyEmit, storeOffs, chunkOffs]
  | cons t r ih =>
    intro off size idx hfit
    simp only [fitsPlan, Bool.and_eq_true, decide_eq_true_eq] at hfit
    obtain ⟨hle, hfit'⟩ := hfit
    have hno : ¬ size < t.sizeInBytes := by omega
    by_cases h0 : off = 0 <;>
      simp [memcpyEmit, hno, h0, storeOffs_append, storeOffs, chunkOffs,
        ih _ _ _ hfit']

/-- Amended claim C7: the memmove lowering plans with overlapping accesses
disabled (the source passes volatile to the planner), while the memcpy
lowering permits them; whenever the target's fast-misaligned-access policy
answers no — so the overlap heuristic can never fire — the two lowerings
compute exactly the same chunk sequence, and their emitted loads and stores
visit exactly the same per-chunk offsets; only the emission order differs. -/
theorem memmovePlanMatchesMemcpyNoOverlap (limit len : Nat) (dacc : Bool)
    (dAl sAl : Nat) (oty : Option LLTy) (al fast : LLTy → Nat → Bool)
    (hf : ∀ t a, fast t a = false) :
    findGISelOptimalMemOpLowering limit
        (MemOpDesc.copy len dacc (min dAl sAl) sAl false) oty al fast =
      findGISelOptimalMemOpLowering limit
        (MemOpDesc.copy len dacc (min dAl sAl) sAl true) oty al fast ∧
    ∀ e1 e2, optimizeMemcpy limit len dacc dAl sAl false oty al fast = some e1 →
      optimizeMemmove limit len dacc dAl sAl oty al fast = some e2 →
      loadOffs e1 = loadOffs e2 ∧ storeOffs e1 = storeOffs e2 := by
  have hdesc : MemOpDesc.copy len dacc (min dAl sAl) sAl false =
      { MemOpDesc.copy len dacc (min dAl sAl) sAl true with allowOverlap := true } :=
    rfl
  have hplan : findGISelOptimalMemOpLowering limit
      (MemOpDesc.copy len dacc (min dAl sAl) sAl false) oty al fast =
    findGISelOptimalMemOpLowering limit
      (MemOpDesc.copy len dacc (min dAl sAl) sAl true) oty al fast := by
    rw [hdesc]
    exact findGISel_overlap_irrel limit _ true oty al fast hf
  refine ⟨hplan, ?_⟩
  intro e1 e2 h1 h2
  simp only [optimizeMemcpy] at h1
  simp only [optimizeMemmove] at h2
  split at h1
  · exact absurd h1 (by simp)
  · rename_i plan1 hplan1
    split at h2
    · exact absurd h2 (by simp)
    · rename_i plan2 hplan2
      obtain rfl : plan1 = plan2 := by
        have := hplan
        rw [hplan1, hplan2] at this
        simpa using this
      have hfits : fitsPlan plan1 len = true := by
        have := findGISel_fits limit _ oty al fast hf plan1 hplan2
        simpa [MemOpDesc.copy] using this
      obtain rfl : memcpyEmit plan1 0 len 0 = e1 := by simpa using h1
      obtain rfl : memmoveEmit plan1 = e2 := by simpa using h2
      constructor
      · rw [memcpyEmit_loadOffs plan1 0 len 0 hfits, memmoveEmit,
          loadOffs_append, memmoveLoads_loadOffs, memmoveStores_loadOffs]
        simp
      · rw [memcpyEmit_storeOffs plan1 0 len 0 hfits, memmoveEmit,
          storeOffs_append, memmoveLoads_storeOffs, memmoveStores_storeOffs]
        simp

/-- Witness for the amended C7 at length 7 with a negative fast oracle. -/
theorem memmovePlanMatches_witness :
    (∀ t a, allFalseOracle t a = false) ∧
    (findGISelOptimalMemOpLowering 8
        (MemOpDesc.copy 7 false (min 1 1) 1 false) none allTrueOracle
        allFalseOracle =
      findGISelOptimalMemOpLowering 8
        (MemOpDesc.copy 7 false (min 1 1) 1 true) none allTrueOracle
        allFalseOracle) ∧
    (loadOffs memcpyExampleEvents = loadOffs memmoveExampleEvents ∧
      storeOffs memcpyExampleEvents = storeOffs memmoveExampleEvents) :=
  ⟨fun _ _ => rfl,
    (memmovePlanMatchesMemcpyNoOverlap 8 7 false 1 1 none allTrueOracle
      allFalseOracle (fun _ _ => rfl)).1,
    (memmovePlanMatchesMemcpyNoOverlap 8 7 false 1 1 none allTrueOracle
      allFalseOracle (fun _ _ => rfl)).2 memcpyExampleEvents
      memmoveExampleEvents (by decide) (by decide)⟩

/-- Witness for C10: the two results of one `G_UNMERGE_VALUES` compare
unequal, a result compared with itself compares equal. -/
theorem equalDefsSameInstr_witness :
    (defIdxIgnoringCopies exUnmergeState exUnmergeState.instrs.length 0 = some 1 ∧
      defIdxIgnoringCopies exUnmergeState exUnmergeState.instrs.length 1 = some 1) ∧
    (matchEqualDefs (fun _ _ => true) exUnmergeState (some 0) (some 1) = true ↔
      (0 : Nat) = 1) ∧
    (matchEqualDefs (fun _ _ => true) exUnmergeState (some 0) (some 0) = true ↔
      (0 : Nat) = 0) :=
  ⟨⟨by decide, by decide⟩,
    equalDefsSameInstr (fun _ _ => true) exUnmergeState 0 1 1 (by decide) (by decide),
    equalDefsSameInstr (fun _ _ => true) exUnmergeState 0 0 1 (by decide) (by decide)⟩

end Combiner
